import Mathlib

/-!
Shallow embedding of the core analytics of the ft-holdings-sectors
repository (src/peer_analytics.py and src/db.py), together with proofs
of the specification claims about them.

Numeric values (portfolio weights, percentages, market caps) are
modelled as exact rationals (ℚ).  Python's `round(x, k)` (round half to
even) is modelled explicitly by `pyRound1` / `pyRound2`.
-/

namespace FTH

/-- Round a rational to the nearest integer, ties to even
(Python's built-in `round` semantics). -/
def roundHalfEven (x : ℚ) : ℤ :=
  let f : ℤ := ⌊x⌋
  let r : ℚ := x - f
  if r < 1/2 then f
  else if 1/2 < r then f + 1
  else if f % 2 = 0 then f else f + 1

/-- Python `round(x, 1)` on exact rationals. -/
def pyRound1 (x : ℚ) : ℚ := (roundHalfEven (10 * x) : ℚ) / 10

/-- Python `round(x, 2)` on exact rationals. -/
def pyRound2 (x : ℚ) : ℚ := (roundHalfEven (100 * x) : ℚ) / 100

/-! ## Data model: enriched holding rows (peer_analytics.py)

One row of the enriched holdings DataFrame, restricted to the columns
the analytics claims depend on. -/

structure HRow where
  fund_name : String
  is_alquity : Bool
  ticker : String
  weight : ℚ
  deriving DecidableEq, Repr

/-- `_split_alquity`, first component: `df[df["is_alquity"] == 1]`. -/
def alqRows (df : List HRow) : List HRow := df.filter (·.is_alquity)

/-- `_split_alquity`, second component: `df[df["is_alquity"] == 0]`. -/
def peerRows (df : List HRow) : List HRow := df.filter (fun r => !r.is_alquity)

/-- `_peer_fund_count`: `peers_df["fund_name"].nunique()`. -/
def numPeersOf (peers : List HRow) : ℕ := (peers.map (·.fund_name)).toFinset.card

/-- The set of tickers appearing in a list of rows (`set(rows["ticker"])`). -/
def tickersOf (rows : List HRow) : Finset String := (rows.map (·.ticker)).toFinset

/-- `rows.groupby("ticker")["weight"].sum()` evaluated at one ticker. -/
def weightOfTicker (rows : List HRow) (t : String) : ℚ :=
  ((rows.filter (fun r => r.ticker = t)).map (·.weight)).sum

/-- Rows of one peer fund: `peers.groupby("fund_name")` group. -/
def fundGroup (peers : List HRow) (f : String) : List HRow :=
  peers.filter (fun r => r.fund_name = f)

/-! ## 9. Market cap buckets (`_cap_bucket`)

`mc` is `market_cap_usd` in USD millions; `none` models a missing
(NaN) market cap. -/

def cap_bucket (mc : Option ℚ) : String :=
  match mc with
  | none => "Unknown"
  | some v =>
    if 10000 ≤ v then "Large Cap"
    else if 2500 ≤ v then "Mid Cap"
    else "Small Cap"

/-! ## 1. Holdings overlap (`holdings_overlap`) -/

structure ORow where
  fund_name : String
  overlap_count : ℕ
  alquity_total : ℕ
  peer_total : ℕ
  overlap_weight_alquity : ℚ
  overlap_weight_peer : ℚ
  jaccard_index : ℚ
  deriving DecidableEq, Repr

/-- The row `holdings_overlap` builds for one peer fund `f`. -/
def overlapRow (alq peers : List HRow) (f : String) : ORow :=
  let alqT := tickersOf alq
  let group := fundGroup peers f
  let peerT := tickersOf group
  let shared := alqT ∩ peerT
  let yoke := alqT ∪ peerT
  { fund_name := f
    overlap_count := shared.card
    alquity_total := alqT.card
    peer_total := peerT.card
    overlap_weight_alquity := shared.sum (weightOfTicker alq)
    overlap_weight_peer := shared.sum (weightOfTicker group)
    jaccard_index := if yoke.card ≠ 0 then (shared.card : ℚ) / (yoke.card : ℚ) else 0 }

/-- `holdings_overlap`: one row per distinct peer fund, sorted by
`overlap_count` descending.  (pandas iterates `groupby` groups in
sorted-key order; the claims proved below do not depend on the
pre-sort enumeration order, which we take from `dedup`.) -/
def holdings_overlap (df : List HRow) : List ORow :=
  let alq := alqRows df
  if alq.isEmpty then []
  else
    let peers := peerRows df
    let funds := (peers.map (·.fund_name)).dedup
    List.insertionSort (fun a b => b.overlap_count ≤ a.overlap_count)
      (funds.map (overlapRow alq peers))

/-! ## 2. Conviction / active positions (`conviction_positions`)

The source builds `all_tickers = set(alq["ticker"]) | set(peers["ticker"])`
and iterates it via `list(all_tickers)`; a Python set iterates in an
unspecified (hash-dependent) order, so the enumeration is modelled as an
explicit parameter `order`, constrained in the theorems to be a
duplicate-free enumeration of exactly the union of tickers. -/

structure CRow where
  ticker : String
  alquity_weight : ℚ
  peer_avg_weight : ℚ
  peer_holder_count : ℕ
  active_weight : ℚ
  deriving DecidableEq, Repr

/-- Distinct-peer-fund holder count of one ticker
(`peers.groupby("ticker").agg(peer_holder_count=("fund_name","nunique"))`). -/
def holderCount (peers : List HRow) (t : String) : ℕ :=
  ((peers.filter (fun r => r.ticker = t)).map (·.fund_name)).toFinset.card

/-- The row `conviction_positions` builds for one ticker of the union.
`peer_avg_weight = peer_total_weight / num_peers`; absent tickers of
either side contribute weight 0 (the `fillna(0)` steps). -/
def convRow (alq peers : List HRow) (numPeers : ℕ) (t : String) : CRow :=
  let aw := weightOfTicker alq t
  let pav := weightOfTicker peers t / (numPeers : ℚ)
  { ticker := t
    alquity_weight := aw
    peer_avg_weight := pav
    peer_holder_count := holderCount peers t
    active_weight := aw - pav }

/-- `conviction_positions`, with the set-iteration order made explicit.
Rows are sorted by `abs(active_weight)` descending
(`sort_values("active_weight", ascending=False, key=abs)`). -/
def conviction_positions (df : List HRow) (order : List String) : List CRow :=
  let alq := alqRows df
  if alq.isEmpty then []
  else
    let peers := peerRows df
    let n := numPeersOf peers
    if n = 0 then []
    else
      List.insertionSort (fun a b => |b.active_weight| ≤ |a.active_weight|)
        (order.map (convRow alq peers n))

/-- `order` is a valid iteration order of the Python set
`set(alq["ticker"]) | set(peers["ticker"])`. -/
def convOrderValid (df : List HRow) (order : List String) : Prop :=
  order.Nodup ∧ order.toFinset = tickersOf (alqRows df) ∪ tickersOf (peerRows df)

/-! ## 3. Unique positions (`unique_positions`) -/

structure PCMRow where
  ticker : String
  holder_count : ℕ
  avg_weight : ℚ
  deriving DecidableEq, Repr

structure UPResult where
  alquity_unique : List HRow
  alquity_rare : List (HRow × ℕ)
  peer_consensus_missing : List PCMRow
  deriving DecidableEq, Repr

/-- Mean weight over the peer rows holding ticker `t`
(`agg(avg_weight=("weight", "mean"))`). -/
def meanPeerWeight (peers : List HRow) (t : String) : ℚ :=
  let g := peers.filter (fun r => r.ticker = t)
  ((g.map (·.weight)).sum) / (g.length : ℚ)

/-- `unique_positions`.  The consensus threshold is
`max(1, num_peers * 0.5)` as an exact rational.  pandas `groupby`
iterates tickers in sorted order; the claims below are insensitive to
that pre-sort order, which we take from `dedup`. -/
def unique_positions (df : List HRow) : UPResult :=
  let alq := alqRows df
  let peers := peerRows df
  let n := numPeersOf peers
  let alqT := tickersOf alq
  let thr : ℚ := max 1 ((n : ℚ) / 2)
  let uniq := List.insertionSort (fun a b => b.weight ≤ a.weight)
      (alq.filter (fun r => holderCount peers r.ticker = 0))
  let rare := List.insertionSort (fun a b => b.1.weight ≤ a.1.weight)
      ((alq.filter (fun r => holderCount peers r.ticker ≤ 2)).map
        (fun r => (r, holderCount peers r.ticker)))
  let consTickers := ((peers.map (·.ticker)).dedup).filter
      (fun t => decide (thr ≤ (holderCount peers t : ℚ)) && !(decide (t ∈ alqT)))
  let pcm := List.insertionSort (fun a b => b.holder_count ≤ a.holder_count)
      (consTickers.map (fun t =>
        ({ ticker := t
           holder_count := holderCount peers t
           avg_weight := meanPeerWeight peers t } : PCMRow)))
  { alquity_unique := uniq, alquity_rare := rare, peer_consensus_missing := pcm }

/-! ## 8. Active share (`active_share`) -/

structure TCRow where
  ticker : String
  alquity_weight : ℚ
  consensus_weight : ℚ
  contribution : ℚ
  deriving DecidableEq, Repr

structure ASResult where
  vs_consensus : ℚ
  vs_each_peer : List (String × ℚ)
  top_contributors : List TCRow
  deriving DecidableEq, Repr

/-- `active_share`.  Normalized reference weights (`alq_norm` reindexed
with fill 0): 0 for a ticker with no reference rows, raw group weight
when the reference total is not positive. -/
def alqNormW (alq : List HRow) (t : String) : ℚ :=
  let total := (alq.map (·.weight)).sum
  if 0 < total then weightOfTicker alq t / total * 100 else weightOfTicker alq t

/-- Consensus-portfolio normalized weight per ticker: average peer
weight (`peer total / num_peers`) renormalized to 100; the empty series
(0 everywhere) when there are no peers. -/
def consNormW (peers : List HRow) (n : ℕ) (t : String) : ℚ :=
  if n = 0 then 0
  else
    let total := (peers.map (·.weight)).sum / (n : ℚ)
    let c := weightOfTicker peers t / (n : ℚ)
    if 0 < total then c / total * 100 else c

/-- `active_share`.  The union `all_tickers` is again a Python set; every
quantity reported here is a sum over it (order-irrelevant) or sorted
afterwards, so the enumeration is taken from `dedup`. -/
def active_share (df : List HRow) : ASResult :=
  let alq := alqRows df
  if alq.isEmpty then { vs_consensus := 0, vs_each_peer := [], top_contributors := [] }
  else
    let peers := peerRows df
    let n := numPeersOf peers
    let allT := ((alq.map (·.ticker)) ++ (if n = 0 then [] else peers.map (·.ticker))).dedup
    let vs := pyRound1 ((allT.map (fun t => |alqNormW alq t - consNormW peers n t|)).sum / 2)
    let contrib := (List.insertionSort (fun a b => b.contribution ≤ a.contribution)
        (allT.map (fun t =>
          ({ ticker := t
             alquity_weight := alqNormW alq t
             consensus_weight := consNormW peers n t
             contribution := |alqNormW alq t - consNormW peers n t| } : TCRow)))).take 20
    let perPeer := List.insertionSort (fun a b => a.2 ≤ b.2)
      ((peers.map (·.fund_name)).dedup.map (fun f =>
        let g := fundGroup peers f
        let pTotal := (g.map (·.weight)).sum
        let pNorm : String → ℚ := fun t =>
          if 0 < pTotal then weightOfTicker g t / pTotal * 100 else weightOfTicker g t
        let allTf := ((alq.map (·.ticker)) ++ g.map (·.ticker)).dedup
        (f, pyRound1 ((allTf.map (fun t => |alqNormW alq t - pNorm t|)).sum / 2))))
    { vs_consensus := vs, vs_each_peer := perPeer, top_contributors := contrib }

/-! ## 7. Concentration metrics (`concentration_metrics`) -/

structure KRow where
  fund_name : String
  is_alquity : Bool
  num_positions : ℕ
  top_5_weight : ℚ
  top_10_weight : ℚ
  top_20_weight : ℚ
  hhi : ℚ
  effective_positions : ℚ
  deriving DecidableEq, Repr

/-- The weights of one `(fund_name, is_alquity)` group, sorted
descending (`group["weight"].sort_values(ascending=False)`). -/
def groupWeights (df : List HRow) (f : String) (b : Bool) : List ℚ :=
  List.insertionSort (fun a b => b ≤ a)
    ((df.filter (fun r => r.fund_name = f && r.is_alquity = b)).map (·.weight))

/-- Unrounded Herfindahl index of a weight list: weights renormalized to
sum to 100, then summed squares; 0 when the total is not positive. -/
def hhiRaw (ws : List ℚ) : ℚ :=
  let total := ws.sum
  if 0 < total then (ws.map (fun w => (w / total * 100) ^ 2)).sum else 0

/-- The row `concentration_metrics` builds for one fund group
(claim-relevant columns). -/
def concRowOf (df : List HRow) (p : String × Bool) : KRow :=
  let ws := groupWeights df p.1 p.2
  let hhi := hhiRaw ws
  { fund_name := p.1
    is_alquity := p.2
    num_positions := ws.length
    top_5_weight := (ws.take 5).sum
    top_10_weight := (ws.take 10).sum
    top_20_weight := (ws.take 20).sum
    hhi := pyRound1 hhi
    effective_positions := if 0 < hhi then pyRound1 (10000 / hhi) else (ws.length : ℚ) }

/-- `concentration_metrics`: one row per distinct `(fund_name,
is_alquity)` pair, reference fund sorted first. -/
def concentration_metrics (df : List HRow) : List KRow :=
  List.insertionSort (fun a b => b.is_alquity ≤ a.is_alquity)
    ((df.map (fun r => (r.fund_name, r.is_alquity))).dedup.map (concRowOf df))

/-! ## Temporal diff engine (`db._compute_diffs`)

Input facts are rows of `holdings_sectors_log` restricted to the
comparison window, already deduplicated by
`(log_date, fund_name, category, company_sector)` (done by
`get_comparison_data` via `drop_duplicates(keep="first")` before
calling `_compute_diffs`); the theorems below carry that as a
hypothesis. -/

structure Fact where
  log_date : String
  category : String
  fund_name : String
  company_sector : String
  percentage : ℚ
  date_of_data : String
  url : String
  deriving DecidableEq, Repr

structure DRow where
  log_date : String
  category : String
  fund_name : String
  company_sector : String
  percentage : Option ℚ
  date_of_data : String
  url : String
  prev_percentage : Option ℚ
  diff : Option ℚ
  is_new : Bool
  is_removed : Bool
  is_returning : Bool
  deriving DecidableEq, Repr

/-- Comparison key `(fund_name, category, company_sector)`. -/
def keyOf (f : Fact) : String × String × String :=
  (f.fund_name, f.category, f.company_sector)

def keyOfRow (r : DRow) : String × String × String :=
  (r.fund_name, r.category, r.company_sector)

/-- `df[df["log_date"] == d]`. -/
def factsAt (df : List Fact) (d : String) : List Fact :=
  df.filter (fun f => f.log_date = d)

/-- Baseline row for the oldest date (`i == 0` branch). -/
def baselineRow (f : Fact) : DRow :=
  { log_date := f.log_date, category := f.category, fund_name := f.fund_name
    company_sector := f.company_sector, percentage := some f.percentage
    date_of_data := f.date_of_data, url := f.url
    prev_percentage := none, diff := none
    is_new := false, is_removed := false, is_returning := false }

/-- The merged row for one current fact at iteration `i ≥ 1`: left-join
against the previous date's facts on the key, diff rounded to 2
decimals, `is_new` when no previous match, `is_returning` when new and
the key existed two dates back (`twoAgoKeys` is passed `[]` for
`i < 2`, matching the `is_returning = False` branch). -/
def mergedRow (prev : List Fact) (twoAgoKeys : List (String × String × String))
    (f : Fact) : DRow :=
  let pOpt := prev.find? (fun g => keyOf g = keyOf f)
  let prevPct := pOpt.map (·.percentage)
  let isNew := pOpt.isNone
  { log_date := f.log_date, category := f.category, fund_name := f.fund_name
    company_sector := f.company_sector, percentage := some f.percentage
    date_of_data := f.date_of_data, url := f.url
    prev_percentage := prevPct
    diff := prevPct.map (fun q => pyRound2 (f.percentage - q))
    is_new := isNew
    is_removed := false
    is_returning := isNew && decide (keyOf f ∈ twoAgoKeys) }

/-- Synthesized removed row at date `d` for a key present at the
previous date but absent now, carrying the previous entry's metadata. -/
def removedRow (d : String) (g : Fact) : DRow :=
  { log_date := d, category := g.category, fund_name := g.fund_name
    company_sector := g.company_sector, percentage := none
    date_of_data := g.date_of_data, url := g.url
    prev_percentage := some g.percentage, diff := none
    is_new := false, is_removed := true, is_returning := false }

/-- The key set of the snapshot two dates back, used for `is_returning`
(empty for `i < 2`, matching the `is_returning = False` branch). -/
def twoAgoKeysOf (df : List Fact) (dates : List String) (i : ℕ) :
    List (String × String × String) :=
  if 2 ≤ i then
    match dates[i-2]? with
    | some d2 => (factsAt df d2).map keyOf
    | none => []
  else []

/-- The synthesized removed rows of iteration `i ≥ 1`: the previous
date's keys minus the current keys form a Python set; for each such key
the FIRST matching previous row is used (`.iloc[0]`), modelled by the
`find? ... = some g` guard.  The claims proved below do not depend on
the set's enumeration order. -/
def removedRowsOf (df : List Fact) (di dp : String) : List DRow :=
  (((factsAt df dp).filter (fun g =>
      decide ((factsAt df dp).find? (fun h => keyOf h = keyOf g) = some g) &&
      ((factsAt df di).find? (fun c => keyOf c = keyOf g)).isNone)).map (removedRow di))

/-- The rows `_compute_diffs` produces for iteration `i` of the date
loop. -/
def diffsAt (df : List Fact) (dates : List String) (i : ℕ) : List DRow :=
  match dates[i]? with
  | none => []
  | some d =>
    if i = 0 then (factsAt df d).map baselineRow
    else
      match dates[i-1]? with
      | none => []
      | some dp =>
        (factsAt df d).map (mergedRow (factsAt df dp) (twoAgoKeysOf df dates i)) ++
          removedRowsOf df d dp

/-- `_compute_diffs`: concatenation of all per-date row sets. -/
def compute_diffs (df : List Fact) (dates : List String) : List DRow :=
  ((List.range dates.length).map (diffsAt df dates)).flatten

/-- The input invariant guaranteed by `get_comparison_data`: at most one
fact per `(log_date, key)`. -/
def Deduped (df : List Fact) : Prop :=
  ∀ d k, (df.filter (fun f => f.log_date = d && keyOf f = k)).length ≤ 1

/-! ## Sample inputs used by witnesses and counterexamples -/

/-- Reference fund holds A (10); peer fund P holds A (6) and C (4). -/
def ovSample : List HRow :=
  [⟨"Alq", true, "A", 10⟩, ⟨"P", false, "A", 6⟩, ⟨"P", false, "C", 4⟩]

/-- A snapshot with a reference holding and no peer rows at all. -/
def alqOnlySample : List HRow := [⟨"Alq", true, "A", 10⟩]

/-- A snapshot with one peer row and no reference rows. -/
def peerOnlySample : List HRow := [⟨"P", false, "A", 6⟩]

/-- One fund with three equally weighted positions (HHI = 10000/3). -/
def concSample : List HRow :=
  [⟨"F", false, "A", 1⟩, ⟨"F", false, "B", 1⟩, ⟨"F", false, "C", 1⟩]

/-- Conviction tie sample: reference holds AA (4); peer P holds AA (2)
and BB (2), so AA and BB both get |active_weight| = 2, with AA first in
the input. -/
def tieSample : List HRow :=
  [⟨"Alq", true, "AA", 4⟩, ⟨"P", false, "AA", 2⟩, ⟨"P", false, "BB", 2⟩]

/-- One temporal fact, present at d1 only. -/
def tfact1 : Fact := ⟨"d1", "Holdings", "F", "X", 5, "a1", "u1"⟩

/-- Key K present at d1 (3.0), absent at d2, present again at d3 (4.0). -/
def tfactK1 : Fact := ⟨"d1", "Holdings", "F", "K", 3, "a1", "u1"⟩

def tfactK3 : Fact := ⟨"d3", "Holdings", "F", "K", 4, "a3", "u3"⟩

/-! # Theorems -/

/-- C7: the market-cap bucket classification maps every row with
market_cap_usd ≥ 10000 (including exactly 10000) to "Large Cap", every
row with 2500 ≤ market_cap_usd < 10000 (including exactly 2500) to
"Mid Cap", every row with market_cap_usd < 2500 to "Small Cap", and
every row with missing market_cap_usd to "Unknown". -/
theorem cap_bucket_boundaries :
    (∀ q : ℚ, 10000 ≤ q → cap_bucket (some q) = "Large Cap") ∧
    (∀ q : ℚ, 2500 ≤ q → q < 10000 → cap_bucket (some q) = "Mid Cap") ∧
    (∀ q : ℚ, q < 2500 → cap_bucket (some q) = "Small Cap") ∧
    cap_bucket none = "Unknown" := by
  refine ⟨fun q h => ?_, fun q h1 h2 => ?_, fun q h => ?_, rfl⟩
  · show (if 10000 ≤ q then "Large Cap" else if 2500 ≤ q then "Mid Cap" else "Small Cap") = _
    rw [if_pos h]
  · show (if 10000 ≤ q then "Large Cap" else if 2500 ≤ q then "Mid Cap" else "Small Cap") = _
    rw [if_neg (by linarith), if_pos h1]
  · show (if 10000 ≤ q then "Large Cap" else if 2500 ≤ q then "Mid Cap" else "Small Cap") = _
    rw [if_neg (by linarith), if_neg (by linarith)]

/-- Witness for C7 at the boundary inputs 10000, 2500 and 2499.99. -/
theorem cap_bucket_boundaries_witness :
    cap_bucket (some 10000) = "Large Cap" ∧
    cap_bucket (some 2500) = "Mid Cap" ∧
    cap_bucket (some (249999/100)) = "Small Cap" ∧
    cap_bucket none = "Unknown" :=
  ⟨cap_bucket_boundaries.1 10000 le_rfl,
   cap_bucket_boundaries.2.1 2500 le_rfl (by norm_num),
   cap_bucket_boundaries.2.2.1 (249999/100) (by norm_num),
   cap_bucket_boundaries.2.2.2⟩

/-- C10: every row of the combined temporal diff output satisfies:
is_returning implies is_new; is_removed implies is_new = false,
is_returning = false, percentage = null and diff = null; and is_new
implies prev_percentage = null and diff = null. -/
theorem temporal_flag_invariants (df : List Fact) (dates : List String) :
    ∀ r ∈ compute_diffs df dates,
      (r.is_returning = true → r.is_new = true) ∧
      (r.is_removed = true → r.is_new = false ∧ r.is_returning = false ∧
        r.percentage = none ∧ r.diff = none) ∧
      (r.is_new = true → r.prev_percentage = none ∧ r.diff = none) := by
  intro r hr
  unfold compute_diffs at hr
  rw [List.mem_flatten] at hr
  obtain ⟨l, hl, hrl⟩ := hr
  rw [List.mem_map] at hl
  obtain ⟨i, -, rfl⟩ := hl
  unfold diffsAt at hrl
  split at hrl
  · simp at hrl
  · split at hrl
    · -- baseline rows, i = 0
      obtain ⟨f, -, rfl⟩ := List.mem_map.mp hrl
      simp [baselineRow]
    · split at hrl
      · simp at hrl
      · rw [List.mem_append] at hrl
        rcases hrl with hm | hrm
        · -- merged rows
          obtain ⟨f, -, rfl⟩ := List.mem_map.mp hm
          refine ⟨fun h => ?_, fun h => ?_, fun h => ?_⟩
          · simp only [mergedRow, Bool.and_eq_true] at h ⊢
            exact h.1
          · simp [mergedRow] at h
          · simp only [mergedRow, Option.isNone_iff_eq_none] at h ⊢
            rw [h]
            exact ⟨rfl, rfl⟩
        · -- synthesized removed rows
          obtain ⟨g, -, rfl⟩ := List.mem_map.mp hrm
          simp [removedRow]

/-- Witness for C10: the synthesized removed row of the concrete
one-fact input, evaluated at dates d1 < d2. -/
theorem temporal_flag_invariants_witness :
    ((removedRow "d2" tfact1).is_returning = true →
      (removedRow "d2" tfact1).is_new = true) ∧
    ((removedRow "d2" tfact1).is_removed = true →
      (removedRow "d2" tfact1).is_new = false ∧
      (removedRow "d2" tfact1).is_returning = false ∧
      (removedRow "d2" tfact1).percentage = none ∧
      (removedRow "d2" tfact1).diff = none) ∧
    ((removedRow "d2" tfact1).is_new = true →
      (removedRow "d2" tfact1).prev_percentage = none ∧
      (removedRow "d2" tfact1).diff = none) :=
  temporal_flag_invariants [tfact1] ["d1", "d2"] (removedRow "d2" tfact1) (by decide)

/-- C6: in holdings_overlap, for every peer fund the reported
jaccard_index equals |shared tickers| / |union of reference and peer
tickers|, lies in [0, 1], and equals 1 iff the peer's ticker set is
identical to the reference fund's ticker set. -/
theorem jaccard_correct (df : List HRow) :
    ∀ r ∈ holdings_overlap df,
      r.jaccard_index =
        ((tickersOf (alqRows df) ∩ tickersOf (fundGroup (peerRows df) r.fund_name)).card : ℚ) /
        ((tickersOf (alqRows df) ∪ tickersOf (fundGroup (peerRows df) r.fund_name)).card : ℚ) ∧
      0 ≤ r.jaccard_index ∧ r.jaccard_index ≤ 1 ∧
      (r.jaccard_index = 1 ↔
        tickersOf (fundGroup (peerRows df) r.fund_name) = tickersOf (alqRows df)) := by
  intro r hr
  rw [holdings_overlap] at hr
  dsimp only at hr
  split at hr
  · simp at hr
  · rename_i hne
    rw [List.mem_insertionSort, List.mem_map] at hr
    obtain ⟨f, -, rfl⟩ := hr
    have hr_fund : (overlapRow (alqRows df) (peerRows df) f).fund_name = f := rfl
    rw [hr_fund]
    set A := tickersOf (alqRows df) with hA
    set P := tickersOf (fundGroup (peerRows df) f) with hP
    have hAne : A.Nonempty := by
      rcases List.exists_mem_of_ne_nil (alqRows df)
        (fun h => hne (List.isEmpty_iff.mpr h)) with ⟨x, hx⟩
      exact ⟨x.ticker, List.mem_toFinset.mpr (List.mem_map_of_mem _ hx)⟩
    have hU : 0 < (A ∪ P).card :=
      Finset.card_pos.mpr (hAne.mono Finset.subset_union_left)
    have hj : (overlapRow (alqRows df) (peerRows df) f).jaccard_index =
        ((A ∩ P).card : ℚ) / ((A ∪ P).card : ℚ) := by
      show (if (A ∪ P).card ≠ 0 then ((A ∩ P).card : ℚ) / ((A ∪ P).card : ℚ) else 0) = _
      rw [if_pos hU.ne']
    have hcard : (A ∩ P).card ≤ (A ∪ P).card :=
      Finset.card_le_card Finset.inter_subset_union
    have hUq : (0:ℚ) < ((A ∪ P).card : ℚ) := by exact_mod_cast hU
    refine ⟨hj, ?_, ?_, ?_⟩
    · rw [hj]
      positivity
    · rw [hj]
      rw [div_le_one hUq]
      exact_mod_cast hcard
    · rw [hj, div_eq_one_iff_eq hUq.ne']
      constructor
      · intro h
        have hsets : A ∪ P = A ∩ P :=
          (Finset.eq_of_subset_of_card_le Finset.inter_subset_union
            (by exact_mod_cast h.ge)).symm
        have : A = P := sup_eq_inf.mp hsets
        exact this.symm
      · intro h
        rw [h]
        rw [Finset.inter_self, Finset.union_self]

/-- Witness for C6 at the concrete snapshot `ovSample`
(reference {A}, peer P {A, C}: jaccard = 1/2). -/
theorem jaccard_correct_witness :
    (overlapRow (alqRows ovSample) (peerRows ovSample) "P").jaccard_index =
      ((tickersOf (alqRows ovSample) ∩
        tickersOf (fundGroup (peerRows ovSample) "P")).card : ℚ) /
      ((tickersOf (alqRows ovSample) ∪
        tickersOf (fundGroup (peerRows ovSample) "P")).card : ℚ) ∧
    0 ≤ (overlapRow (alqRows ovSample) (peerRows ovSample) "P").jaccard_index ∧
    (overlapRow (alqRows ovSample) (peerRows ovSample) "P").jaccard_index ≤ 1 ∧
    ((overlapRow (alqRows ovSample) (peerRows ovSample) "P").jaccard_index = 1 ↔
      tickersOf (fundGroup (peerRows ovSample) "P") = tickersOf (alqRows ovSample)) :=
  jaccard_correct ovSample _ (by
    rw [show holdings_overlap ovSample =
      [overlapRow (alqRows ovSample) (peerRows ovSample) "P"] from rfl]
    exact List.mem_singleton.mpr rfl)

/-- Sum of squares of nonnegative rationals is at most the square of
the sum. -/
theorem sum_sq_le_sq_sum (l : List ℚ) (h : ∀ x ∈ l, 0 ≤ x) :
    (l.map (fun x => x ^ 2)).sum ≤ l.sum ^ 2 := by
  induction l with
  | nil => simp
  | cons a l ih =>
    simp only [List.map_cons, List.sum_cons]
    have ha : 0 ≤ a := h a (List.mem_cons_self a l)
    have hl : ∀ x ∈ l, 0 ≤ x := fun x hx => h x (List.mem_cons_of_mem a hx)
    have hsum : 0 ≤ l.sum := List.sum_nonneg hl
    have hih := ih hl
    nlinarith [mul_nonneg ha hsum]

/-- Renormalization map distributes over the list sum. -/
theorem sum_div_mul (l : List ℚ) (t : ℚ) :
    (l.map (fun w => w / t * 100)).sum = l.sum / t * 100 := by
  induction l with
  | nil => simp
  | cons a l ih =>
    simp only [List.map_cons, List.sum_cons, ih]
    ring

/-- The unrounded HHI of a nonempty list of positive weights lies in
(0, 10000]. -/
theorem hhiRaw_bounds (ws : List ℚ) (hne : ws ≠ []) (hpos : ∀ w ∈ ws, 0 < w) :
    0 < hhiRaw ws ∧ hhiRaw ws ≤ 10000 := by
  have htot : 0 < ws.sum := List.sum_pos ws hpos hne
  have hval : hhiRaw ws = (ws.map (fun w => (w / ws.sum * 100) ^ 2)).sum := by
    show (if 0 < ws.sum then (ws.map (fun w => (w / ws.sum * 100) ^ 2)).sum else 0) = _
    rw [if_pos htot]
  constructor
  · rw [hval]
    apply List.sum_pos
    · intro x hx
      obtain ⟨w, hw, rfl⟩ := List.mem_map.mp hx
      have hwpos := hpos w hw
      positivity
    · simpa using hne
  · rw [hval]
    have hmm : ws.map (fun w => (w / ws.sum * 100) ^ 2) =
        (ws.map (fun w => w / ws.sum * 100)).map (fun x => x ^ 2) := by
      rw [List.map_map]
      rfl
    rw [hmm]
    have hb := sum_sq_le_sq_sum (ws.map (fun w => w / ws.sum * 100))
      (by
        intro x hx
        obtain ⟨w, hw, rfl⟩ := List.mem_map.mp hx
        have hwpos := hpos w hw
        positivity)
    have hs : (ws.map (fun w => w / ws.sum * 100)).sum = 100 := by
      rw [sum_div_mul, div_self htot.ne']
      norm_num
    rw [hs] at hb
    calc ((ws.map (fun w => w / ws.sum * 100)).map (fun x => x ^ 2)).sum
        ≤ (100:ℚ) ^ 2 := hb
      _ = 10000 := by norm_num

/-- C5 (amended): in concentration_metrics, for every fund group whose
rows all have weight > 0, the unrounded HHI lies in (0, 10000]; the
reported hhi is the unrounded HHI rounded to one decimal, and the
reported effective_positions is 10000 divided by the UNROUNDED HHI,
rounded to one decimal (not 10000 divided by the reported, rounded
hhi — see the counterexample). -/
theorem concentration_hhi_bounds (df : List HRow)
    (hw : ∀ row ∈ df, 0 < row.weight) :
    ∀ r ∈ concentration_metrics df,
      0 < hhiRaw (groupWeights df r.fund_name r.is_alquity) ∧
      hhiRaw (groupWeights df r.fund_name r.is_alquity) ≤ 10000 ∧
      r.hhi = pyRound1 (hhiRaw (groupWeights df r.fund_name r.is_alquity)) ∧
      r.effective_positions =
        pyRound1 (10000 / hhiRaw (groupWeights df r.fund_name r.is_alquity)) := by
  intro r hr
  rw [concentration_metrics, List.mem_insertionSort, List.mem_map] at hr
  obtain ⟨p, hp, rfl⟩ := hr
  have hfn : (concRowOf df p).fund_name = p.1 := rfl
  have hia : (concRowOf df p).is_alquity = p.2 := rfl
  rw [hfn, hia]
  obtain ⟨row, hrow, hpeq⟩ := List.mem_map.mp (List.mem_dedup.mp hp)
  have hwsne : groupWeights df p.1 p.2 ≠ [] := by
    have hmem : row.weight ∈ groupWeights df p.1 p.2 := by
      rw [groupWeights, List.mem_insertionSort, List.mem_map]
      refine ⟨row, List.mem_filter.mpr ⟨hrow, ?_⟩, rfl⟩
      rw [← hpeq]
      simp
    exact fun h => by simp [h] at hmem
  have hpos : ∀ w ∈ groupWeights df p.1 p.2, 0 < w := by
    intro w hw'
    rw [groupWeights, List.mem_insertionSort] at hw'
    obtain ⟨r', hr', rfl⟩ := List.mem_map.mp hw'
    exact hw r' (List.mem_of_mem_filter hr')
  obtain ⟨hlo, hup⟩ := hhiRaw_bounds _ hwsne hpos
  refine ⟨hlo, hup, rfl, ?_⟩
  show (if 0 < hhiRaw (groupWeights df p.1 p.2)
      then pyRound1 (10000 / hhiRaw (groupWeights df p.1 p.2))
      else ((groupWeights df p.1 p.2).length : ℚ)) = _
  rw [if_pos hlo]

/-- Witness for C5 at the concrete snapshot `concSample` (one fund,
three equal positive weights). -/
theorem concentration_hhi_bounds_witness :
    0 < hhiRaw (groupWeights concSample "F" false) ∧
    hhiRaw (groupWeights concSample "F" false) ≤ 10000 ∧
    (concRowOf concSample ("F", false)).hhi =
      pyRound1 (hhiRaw (groupWeights concSample "F" false)) ∧
    (concRowOf concSample ("F", false)).effective_positions =
      pyRound1 (10000 / hhiRaw (groupWeights concSample "F" false)) :=
  concentration_hhi_bounds concSample (by decide) (concRowOf concSample ("F", false))
    (by
      rw [show concentration_metrics concSample =
        [concRowOf concSample ("F", false)] from rfl]
      exact List.mem_singleton.mpr rfl)

/-- Counterexample for C5 as stated: with three equal weights the
unrounded HHI is 10000/3, the reported hhi is 3333.3 and the reported
effective_positions is 3.0, but 10000 / 3333.3 ≠ 3.0 — the reported
effective_positions is NOT exactly 10000 divided by the reported hhi. -/
theorem concentration_rounding_counterexample :
    (concentration_metrics concSample).map (fun r => (r.hhi, r.effective_positions)) =
      [(33333/10, 3)] ∧ (3 : ℚ) ≠ 10000 / (33333/10) := by
  constructor
  · norm_num [concentration_metrics, concRowOf, groupWeights, hhiRaw, pyRound1,
      roundHalfEven, concSample, List.dedup, List.pwFilter]
  · norm_num

/-- The `peer_consensus_missing` component of `unique_positions`,
unfolded. -/
theorem up_pcm_eq (df : List HRow) :
    (unique_positions df).peer_consensus_missing =
      List.insertionSort (fun a b => b.holder_count ≤ a.holder_count)
        (((((peerRows df).map (·.ticker)).dedup).filter
          (fun t =>
            decide (max 1 ((numPeersOf (peerRows df) : ℚ) / 2) ≤
              (holderCount (peerRows df) t : ℚ)) &&
            !(decide (t ∈ tickersOf (alqRows df))))).map
          (fun t => ({ ticker := t
                       holder_count := holderCount (peerRows df) t
                       avg_weight := meanPeerWeight (peerRows df) t } : PCMRow))) := rfl

/-- C9: in unique_positions, peer_consensus_missing contains exactly
the tickers whose distinct-peer holder count is at least
max(1, num_peers × 0.5) and that are not held by the reference fund,
each aggregated with its holder count and mean peer weight, and the
rows are sorted by holder count descending. -/
theorem peer_consensus_missing_correct (df : List HRow) :
    (∀ r ∈ (unique_positions df).peer_consensus_missing,
      r.holder_count = holderCount (peerRows df) r.ticker ∧
      r.avg_weight = meanPeerWeight (peerRows df) r.ticker ∧
      max 1 ((numPeersOf (peerRows df) : ℚ) / 2) ≤
        (holderCount (peerRows df) r.ticker : ℚ) ∧
      r.ticker ∉ tickersOf (alqRows df)) ∧
    (∀ t : String,
      max 1 ((numPeersOf (peerRows df) : ℚ) / 2) ≤ (holderCount (peerRows df) t : ℚ) →
      t ∉ tickersOf (alqRows df) →
      t ∈ ((unique_positions df).peer_consensus_missing).map (·.ticker)) ∧
    List.Sorted (fun a b => b.holder_count ≤ a.holder_count)
      (unique_positions df).peer_consensus_missing := by
  rw [up_pcm_eq]
  refine ⟨?_, ?_, ?_⟩
  · intro r hr
    rw [List.mem_insertionSort, List.mem_map] at hr
    obtain ⟨t, ht, rfl⟩ := hr
    have hcond := (List.mem_filter.mp ht).2
    rw [Bool.and_eq_true, decide_eq_true_iff, Bool.not_eq_true',
      decide_eq_false_iff_not] at hcond
    exact ⟨rfl, rfl, hcond.1, hcond.2⟩
  · intro t hthr halq
    rw [List.mem_map]
    have hone : (1:ℚ) ≤ (holderCount (peerRows df) t : ℚ) :=
      le_trans (le_max_left _ _) hthr
    have hpos : 0 < holderCount (peerRows df) t := by
      rcases Nat.eq_zero_or_pos (holderCount (peerRows df) t) with h0 | h
      · rw [h0] at hone
        norm_num at hone
      · exact h
    have htpeer : t ∈ ((peerRows df).map (·.ticker)).dedup := by
      rw [List.mem_dedup]
      rw [holderCount] at hpos
      have := Finset.card_pos.mp hpos
      obtain ⟨x, hx⟩ := this
      rw [List.mem_toFinset] at hx
      obtain ⟨row, hrow, -⟩ := List.mem_map.mp hx
      have := (List.mem_filter.mp hrow)
      refine List.mem_map.mpr ⟨row, this.1, ?_⟩
      exact of_decide_eq_true this.2
    refine ⟨PCMRow.mk t (holderCount (peerRows df) t) (meanPeerWeight (peerRows df) t),
      ?_, rfl⟩
    rw [List.mem_insertionSort, List.mem_map]
    refine ⟨t, List.mem_filter.mpr ⟨htpeer, ?_⟩, rfl⟩
    rw [Bool.and_eq_true, decide_eq_true_iff, Bool.not_eq_true',
      decide_eq_false_iff_not]
    exact ⟨hthr, halq⟩
  · haveI : IsTotal PCMRow (fun a b => b.holder_count ≤ a.holder_count) :=
      ⟨fun a b => le_total _ _⟩
    haveI : IsTrans PCMRow (fun a b => b.holder_count ≤ a.holder_count) :=
      ⟨fun a b c h1 h2 => le_trans h2 h1⟩
    exact List.sorted_insertionSort _ _

/-- Witness for C9 at `ovSample`: the single consensus-missing ticker C
(held by the one peer, absent from the reference fund). -/
theorem peer_consensus_missing_correct_witness :
    ((PCMRow.mk "C" 1 4).holder_count = holderCount (peerRows ovSample) "C" ∧
     (PCMRow.mk "C" 1 4).avg_weight = meanPeerWeight (peerRows ovSample) "C" ∧
     max 1 ((numPeersOf (peerRows ovSample) : ℚ) / 2) ≤
       (holderCount (peerRows ovSample) "C" : ℚ) ∧
     "C" ∉ tickersOf (alqRows ovSample)) ∧
    "C" ∈ ((unique_positions ovSample).peer_consensus_missing).map (·.ticker) :=
  ⟨(peer_consensus_missing_correct ovSample).1 (PCMRow.mk "C" 1 4)
      (by
        rw [show (unique_positions ovSample).peer_consensus_missing =
            [PCMRow.mk "C" 1 4] by
          rw [up_pcm_eq]
          have hAC : ¬ ("A" : String) = "C" := by decide
          norm_num [peerRows, ovSample, numPeersOf, holderCount, tickersOf, alqRows,
            meanPeerWeight, List.dedup, List.pwFilter, List.filter_cons, hAC]]
        exact List.mem_singleton.mpr rfl),
   (peer_consensus_missing_correct ovSample).2.1 "C"
      (by
        rw [show numPeersOf (peerRows ovSample) = 1 from by decide,
          show holderCount (peerRows ovSample) "C" = 1 from by decide]
        norm_num)
      (by decide)⟩

/-- Pointwise sums of mapped lists split. -/
theorem sum_map_add {α : Type} (l : List α) (f g : α → ℚ) :
    (l.map (fun x => f x + g x)).sum = (l.map f).sum + (l.map g).sum := by
  induction l with
  | nil => simp
  | cons a l ih =>
    simp [ih]
    ring

/-- Division by a constant distributes over a mapped sum. -/
theorem sum_map_div {α : Type} (l : List α) (f : α → ℚ) (c : ℚ) :
    (l.map (fun x => f x / c)).sum = (l.map f).sum / c := by
  induction l with
  | nil => simp
  | cons a l ih =>
    simp [ih]
    ring

/-- Summing an indicator over a duplicate-free list containing the
marked element yields the marked value. -/
theorem sum_map_ite_single (order : List String) (hnd : order.Nodup)
    (x : String) (hx : x ∈ order) (w : ℚ) :
    (order.map (fun t => if x = t then w else 0)).sum = w := by
  induction order with
  | nil => cases hx
  | cons a l ih =>
    rcases List.mem_cons.mp hx with rfl | hx'
    · simp only [List.map_cons, List.sum_cons]
      have hz : (l.map (fun t => if x = t then w else 0)).sum = 0 := by
        apply List.sum_eq_zero
        intro y hy
        obtain ⟨t, ht, rfl⟩ := List.mem_map.mp hy
        rw [if_neg]
        rintro rfl
        exact (List.nodup_cons.mp hnd).1 ht
      rw [if_pos trivial, hz, add_zero]
    · have hne : x ≠ a := by
        rintro rfl
        exact (List.nodup_cons.mp hnd).1 hx'
      simp only [List.map_cons, List.sum_cons, if_neg hne]
      rw [ih (List.nodup_cons.mp hnd).2 hx', zero_add]

/-- `weightOfTicker` unfolds one row at a time. -/
theorem weightOfTicker_cons (r : HRow) (rows : List HRow) (t : String) :
    weightOfTicker (r :: rows) t =
      (if r.ticker = t then r.weight else 0) + weightOfTicker rows t := by
  unfold weightOfTicker
  by_cases h : r.ticker = t
  · simp [List.filter_cons, h]
  · simp [List.filter_cons, h]

/-- Summing the per-ticker weight totals over a duplicate-free
enumeration covering all tickers recovers the total weight. -/
theorem fiber_sum (order : List String) (hnd : order.Nodup) (rows : List HRow)
    (hc : ∀ r ∈ rows, r.ticker ∈ order) :
    (order.map (fun t => weightOfTicker rows t)).sum = (rows.map (·.weight)).sum := by
  induction rows with
  | nil => simp [weightOfTicker]
  | cons r rows ih =>
    have hr := hc r (List.mem_cons_self r rows)
    have hrest : ∀ x ∈ rows, x.ticker ∈ order :=
      fun x hx => hc x (List.mem_cons_of_mem _ hx)
    have hsplit : (order.map (fun t => weightOfTicker (r :: rows) t)).sum =
        (order.map (fun t => (if r.ticker = t then r.weight else 0) +
          weightOfTicker rows t)).sum := by
      simp only [weightOfTicker_cons]
    rw [hsplit, sum_map_add, sum_map_ite_single order hnd r.ticker hr,
      ih hrest, List.map_cons, List.sum_cons]

/-- `conviction_positions` in the non-degenerate case. -/
theorem conviction_positions_eq (df : List HRow) (order : List String)
    (hane : alqRows df ≠ []) (hnp : numPeersOf (peerRows df) ≠ 0) :
    conviction_positions df order =
      List.insertionSort (fun a b => |b.active_weight| ≤ |a.active_weight|)
        (order.map (convRow (alqRows df) (peerRows df) (numPeersOf (peerRows df)))) := by
  rw [conviction_positions]
  dsimp only
  rw [if_neg (by simp [List.isEmpty_iff, hane]), if_neg hnp]

/-- C1: in conviction_positions, every row's peer_avg_weight is the sum
of ALL peer rows' weights for that ticker divided by num_peers (absent
peers contributing 0), active_weight = alquity_weight −
peer_avg_weight, the result covers exactly the enumerated ticker union,
and the peer_avg_weight column sums to (total peer raw weight) /
num_peers. -/
theorem conviction_peer_avg_correct (df : List HRow) (order : List String)
    (hval : convOrderValid df order)
    (hane : alqRows df ≠ []) (hnp : numPeersOf (peerRows df) ≠ 0) :
    (∀ r ∈ conviction_positions df order,
      r.peer_avg_weight =
        weightOfTicker (peerRows df) r.ticker / (numPeersOf (peerRows df) : ℚ) ∧
      r.alquity_weight = weightOfTicker (alqRows df) r.ticker ∧
      r.active_weight = r.alquity_weight - r.peer_avg_weight) ∧
    ((conviction_positions df order).map (·.ticker)).Perm order ∧
    ((conviction_positions df order).map (·.peer_avg_weight)).sum =
      ((peerRows df).map (·.weight)).sum / (numPeersOf (peerRows df) : ℚ) := by
  rw [conviction_positions_eq df order hane hnp]
  refine ⟨?_, ?_, ?_⟩
  · intro r hr
    rw [List.mem_insertionSort, List.mem_map] at hr
    obtain ⟨t, -, rfl⟩ := hr
    exact ⟨rfl, rfl, rfl⟩
  · have hperm := List.perm_insertionSort
      (fun a b => |b.active_weight| ≤ |a.active_weight|)
      (order.map (convRow (alqRows df) (peerRows df) (numPeersOf (peerRows df))))
    have hp2 := hperm.map (·.ticker)
    rw [List.map_map] at hp2
    have hmm : ((fun x : CRow => x.ticker) ∘
        convRow (alqRows df) (peerRows df) (numPeersOf (peerRows df))) =
        fun t => t := rfl
    rw [hmm, List.map_id'] at hp2
    exact hp2
  · have hperm := List.perm_insertionSort
      (fun a b => |b.active_weight| ≤ |a.active_weight|)
      (order.map (convRow (alqRows df) (peerRows df) (numPeersOf (peerRows df))))
    rw [(hperm.map (·.peer_avg_weight)).sum_eq, List.map_map]
    have hmm : ((·.peer_avg_weight) ∘
        convRow (alqRows df) (peerRows df) (numPeersOf (peerRows df))) =
        fun t => weightOfTicker (peerRows df) t / (numPeersOf (peerRows df) : ℚ) := rfl
    rw [hmm, sum_map_div, fiber_sum order hval.1 (peerRows df)]
    intro r hr
    rw [List.mem_toFinset.symm, hval.2]
    exact Finset.mem_union_right _ (List.mem_toFinset.mpr (List.mem_map_of_mem _ hr))

/-- Witness for C1 at `ovSample` with enumeration ["A", "C"]. -/
theorem conviction_peer_avg_correct_witness :
    ((convRow (alqRows ovSample) (peerRows ovSample)
        (numPeersOf (peerRows ovSample)) "A").peer_avg_weight =
      weightOfTicker (peerRows ovSample) "A" / (numPeersOf (peerRows ovSample) : ℚ) ∧
     (convRow (alqRows ovSample) (peerRows ovSample)
        (numPeersOf (peerRows ovSample)) "A").alquity_weight =
      weightOfTicker (alqRows ovSample) "A" ∧
     (convRow (alqRows ovSample) (peerRows ovSample)
        (numPeersOf (peerRows ovSample)) "A").active_weight =
      (convRow (alqRows ovSample) (peerRows ovSample)
        (numPeersOf (peerRows ovSample)) "A").alquity_weight -
      (convRow (alqRows ovSample) (peerRows ovSample)
        (numPeersOf (peerRows ovSample)) "A").peer_avg_weight) ∧
    ((conviction_positions ovSample ["A", "C"]).map (·.peer_avg_weight)).sum =
      ((peerRows ovSample).map (·.weight)).sum / (numPeersOf (peerRows ovSample) : ℚ) :=
  ⟨(conviction_peer_avg_correct ovSample ["A", "C"]
      ⟨by decide, by decide⟩ (by decide) (by decide)).1
      (convRow (alqRows ovSample) (peerRows ovSample)
        (numPeersOf (peerRows ovSample)) "A")
      (by
        rw [conviction_positions_eq ovSample ["A", "C"] (by decide) (by decide),
          List.mem_insertionSort]
        exact List.mem_map_of_mem _ (by decide)),
   (conviction_peer_avg_correct ovSample ["A", "C"]
      ⟨by decide, by decide⟩ (by decide) (by decide)).2.2⟩

/-- C8 (amended): the result of conviction_positions is ordered by
|active_weight| descending, for every iteration order of the ticker
set.  The relative order of rows with equal |active_weight| is NOT
guaranteed to follow input order: it depends on the unspecified
iteration order of the Python set of tickers (see the
counterexample). -/
theorem conviction_sorted_desc (df : List HRow) (order : List String) :
    List.Sorted (fun a b => |b.active_weight| ≤ |a.active_weight|)
      (conviction_positions df order) := by
  rw [conviction_positions]
  dsimp only
  split
  · exact List.sorted_nil
  · split
    · exact List.sorted_nil
    · haveI : IsTotal CRow (fun a b => |b.active_weight| ≤ |a.active_weight|) :=
        ⟨fun a b => le_total _ _⟩
      haveI : IsTrans CRow (fun a b => |b.active_weight| ≤ |a.active_weight|) :=
        ⟨fun a b c h1 h2 => le_trans h2 h1⟩
      exact List.sorted_insertionSort _ _

/-- Counterexample for C8 as stated: at `tieSample` the tickers AA and
BB have equal |active_weight| and AA occurs before BB in the input, yet
under the (legal) set-iteration order ["BB", "AA"] the result lists BB
before AA — tie order is not stable on input order. -/
theorem conviction_tie_order_counterexample :
    convOrderValid tieSample ["BB", "AA"] ∧
    tieSample.map (·.ticker) = ["AA", "AA", "BB"] ∧
    |(convRow (alqRows tieSample) (peerRows tieSample)
        (numPeersOf (peerRows tieSample)) "AA").active_weight| =
      |(convRow (alqRows tieSample) (peerRows tieSample)
        (numPeersOf (peerRows tieSample)) "BB").active_weight| ∧
    (conviction_positions tieSample ["BB", "AA"]).map (·.ticker) = ["BB", "AA"] := by
  have hn : numPeersOf (peerRows tieSample) = 1 := by decide
  have hBA : ¬ ("BB" : String) = "AA" := by decide
  have hAB : ¬ ("AA" : String) = "BB" := by decide
  have hw1 : weightOfTicker (alqRows tieSample) "AA" = 4 := by
    norm_num [weightOfTicker, alqRows, tieSample, List.filter_cons, hBA]
  have hw2 : weightOfTicker (alqRows tieSample) "BB" = 0 := by
    norm_num [weightOfTicker, alqRows, tieSample, List.filter_cons, hAB]
  have hw3 : weightOfTicker (peerRows tieSample) "AA" = 2 := by
    norm_num [weightOfTicker, peerRows, tieSample, List.filter_cons, hBA]
  have hw4 : weightOfTicker (peerRows tieSample) "BB" = 2 := by
    norm_num [weightOfTicker, peerRows, tieSample, List.filter_cons, hAB]
  refine ⟨⟨by decide, by decide⟩, by decide, ?_, ?_⟩
  · norm_num [convRow, hn, hw1, hw2, hw3, hw4]
  · rw [conviction_positions_eq tieSample ["BB", "AA"] (by decide) (by decide)]
    norm_num [convRow, hn, hw1, hw2, hw3, hw4, List.insertionSort, List.orderedInsert]

/-- C2 (amended): on the degenerate data states, holdings_overlap,
conviction_positions and active_share return empty/zero results when
the reference fund has no rows; holdings_overlap and
conviction_positions also return empty results when there are no
peers, and unique_positions returns empty alquity_unique/alquity_rare
(no reference rows) and empty peer_consensus_missing (no peers).  No
function divides by zero.  However NOT every function is empty/zero on
these states: active_share with reference holdings and zero peers
reports vs_consensus = 50 (see the counterexample). -/
theorem degenerate_inputs_empty (df : List HRow) :
    (alqRows df = [] → holdings_overlap df = []) ∧
    (peerRows df = [] → holdings_overlap df = []) ∧
    (∀ order, alqRows df = [] → conviction_positions df order = []) ∧
    (∀ order, numPeersOf (peerRows df) = 0 → conviction_positions df order = []) ∧
    (alqRows df = [] → (unique_positions df).alquity_unique = [] ∧
      (unique_positions df).alquity_rare = []) ∧
    (peerRows df = [] → (unique_positions df).peer_consensus_missing = []) ∧
    (alqRows df = [] →
      active_share df = { vs_consensus := 0, vs_each_peer := [], top_contributors := [] }) := by
  refine ⟨fun h => ?_, fun h => ?_, fun order h => ?_, fun order h => ?_,
    fun h => ⟨?_, ?_⟩, fun h => ?_, fun h => ?_⟩
  · simp [holdings_overlap, h]
  · simp [holdings_overlap, h]
  · simp [conviction_positions, h]
  · simp [conviction_positions, h]
  · simp [unique_positions, h]
  · simp [unique_positions, h]
  · simp [unique_positions, h]
  · simp [active_share, h]

/-- Witness for C2 at the concrete degenerate snapshots
`peerOnlySample` (no reference rows) and `alqOnlySample` (no peers). -/
theorem degenerate_inputs_empty_witness :
    holdings_overlap peerOnlySample = [] ∧
    holdings_overlap alqOnlySample = [] ∧
    conviction_positions peerOnlySample ["A"] = [] ∧
    conviction_positions alqOnlySample ["A"] = [] ∧
    (unique_positions peerOnlySample).alquity_unique = [] ∧
    (unique_positions peerOnlySample).alquity_rare = [] ∧
    (unique_positions alqOnlySample).peer_consensus_missing = [] ∧
    active_share peerOnlySample =
      { vs_consensus := 0, vs_each_peer := [], top_contributors := [] } :=
  ⟨(degenerate_inputs_empty peerOnlySample).1 rfl,
   (degenerate_inputs_empty alqOnlySample).2.1 rfl,
   (degenerate_inputs_empty peerOnlySample).2.2.1 ["A"] rfl,
   (degenerate_inputs_empty alqOnlySample).2.2.2.1 ["A"] (by decide),
   ((degenerate_inputs_empty peerOnlySample).2.2.2.2.1 rfl).1,
   ((degenerate_inputs_empty peerOnlySample).2.2.2.2.1 rfl).2,
   (degenerate_inputs_empty alqOnlySample).2.2.2.2.2.1 rfl,
   (degenerate_inputs_empty peerOnlySample).2.2.2.2.2.2 rfl⟩

/-- Counterexample for C2 as stated: with a nonempty reference fund and
zero peers, active_share does not return a zero-valued result — its
vs_consensus is 50, not 0. -/
theorem active_share_no_peers_counterexample :
    peerRows alqOnlySample = [] ∧
    (active_share alqOnlySample).vs_consensus = 50 ∧ (50 : ℚ) ≠ 0 := by
  refine ⟨rfl, ?_, by norm_num⟩
  norm_num [active_share, alqOnlySample, alqRows, peerRows, alqNormW, consNormW,
    weightOfTicker, numPeersOf, pyRound1, roundHalfEven, List.dedup, List.pwFilter,
    List.filter_cons]

/-- A list of length at most one containing `a` is exactly `[a]`. -/
theorem eq_singleton_of_length_le_one {α : Type} {l : List α} (h : l.length ≤ 1)
    {a : α} (ha : a ∈ l) : l = [a] := by
  match l with
  | [] => cases ha
  | [x] =>
    rw [List.mem_singleton] at ha
    rw [ha]
  | x :: y :: rest => simp at h

/-- `diffsAt` at the baseline index. -/
theorem diffsAt_zero (df : List Fact) (dates : List String) (d : String)
    (hd : dates[0]? = some d) :
    diffsAt df dates 0 = (factsAt df d).map baselineRow := by
  unfold diffsAt
  rw [hd]
  rfl

/-- `diffsAt` at a later index with both dates in range. -/
theorem diffsAt_pos (df : List Fact) (dates : List String) (i : ℕ) (di dp : String)
    (hi : i ≠ 0) (hdi : dates[i]? = some di) (hdp : dates[i-1]? = some dp) :
    diffsAt df dates i =
      (factsAt df di).map (mergedRow (factsAt df dp) (twoAgoKeysOf df dates i)) ++
        removedRowsOf df di dp := by
  unfold diffsAt
  simp only [hdi, hdp]
  rw [if_neg hi]

/-- `diffsAt` is empty out of range. -/
theorem diffsAt_none (df : List Fact) (dates : List String) (i : ℕ)
    (hd : dates[i]? = none) : diffsAt df dates i = [] := by
  unfold diffsAt
  rw [hd]

/-- Every row produced by iteration `i` of the date loop is dated with
the `i`-th comparison date. -/
theorem diffsAt_log_date (df : List Fact) (dates : List String) (i : ℕ) (d : String)
    (hd : dates[i]? = some d) : ∀ r ∈ diffsAt df dates i, r.log_date = d := by
  intro r hr
  by_cases h0 : i = 0
  · subst h0
    rw [diffsAt_zero df dates d hd] at hr
    obtain ⟨f, hf, rfl⟩ := List.mem_map.mp hr
    exact of_decide_eq_true (List.mem_filter.mp hf).2
  · cases hdp : dates[i-1]? with
    | none =>
      have : i - 1 < dates.length := by
        have : i < dates.length := by
          by_contra hcon
          rw [List.getElem?_eq_none (Nat.le_of_not_lt hcon)] at hd
          cases hd
        omega
      rw [List.getElem?_eq_getElem this] at hdp
      cases hdp
    | some dp =>
      rw [diffsAt_pos df dates i d dp h0 hd hdp, List.mem_append] at hr
      rcases hr with hm | hrm
      · obtain ⟨f, hf, rfl⟩ := List.mem_map.mp hm
        exact of_decide_eq_true (List.mem_filter.mp hf).2
      · obtain ⟨g, -, rfl⟩ := List.mem_map.mp hrm
        rfl

/-- Decomposition of membership in the combined diff output. -/
theorem mem_compute_diffs {df : List Fact} {dates : List String} {r : DRow}
    (hr : r ∈ compute_diffs df dates) :
    ∃ j, j < dates.length ∧ r ∈ diffsAt df dates j := by
  unfold compute_diffs at hr
  rw [List.mem_flatten] at hr
  obtain ⟨l, hl, hrl⟩ := hr
  obtain ⟨j, hj, rfl⟩ := List.mem_map.mp hl
  exact ⟨j, List.mem_range.mp hj, hrl⟩

/-- A flatten over `range n` collapsing to the single block at `i`. -/
theorem flatten_range_eq_single {α : Type} (n i : ℕ) (hi : i < n) (g : ℕ → List α)
    (x : α) (hgi : g i = [x]) (hg : ∀ j, j < n → j ≠ i → g j = []) :
    ((List.range n).map g).flatten = [x] := by
  induction n with
  | zero => omega
  | succ n ih =>
    rw [List.range_succ, List.map_append, List.flatten_append]
    simp only [List.map_cons, List.map_nil, List.flatten_cons, List.flatten_nil,
      List.append_nil]
    rcases Nat.lt_succ_iff_lt_or_eq.mp hi with h | rfl
    · rw [ih h (fun j hj hne => hg j (Nat.lt_succ_of_lt hj) hne),
        hg n (Nat.lt_succ_self n) (by omega), List.append_nil]
    · have hall : ((List.range i).map g).flatten = [] := by
        rw [List.flatten_eq_nil_iff]
        intro l hl
        obtain ⟨j, hj, rfl⟩ := List.mem_map.mp hl
        exact hg j (Nat.lt_succ_of_lt (List.mem_range.mp hj))
          (Nat.ne_of_lt (List.mem_range.mp hj))
      rw [hall, hgi, List.nil_append]

/-- C3: for every comparison date dᵢ (i ≥ 1) and every key present at
d_{i-1} (as fact `p`) but absent at dᵢ, the combined diff output
contains exactly one row dated dᵢ with that key: the synthesized row
with percentage = null, prev_percentage = p's percentage, diff = null,
is_new = false, is_removed = true, is_returning = false, carrying
forward p's date_of_data and url. -/
theorem removed_synthesis_correct (df : List Fact) (dates : List String)
    (hnd : dates.Nodup) (hdedup : Deduped df)
    (i : ℕ) (hi : 1 ≤ i) (di dp : String)
    (hdi : dates[i]? = some di) (hdp : dates[i-1]? = some dp)
    (p : Fact) (hp : p ∈ df) (hpd : p.log_date = dp)
    (habs : ∀ c ∈ df, c.log_date = di → keyOf c ≠ keyOf p) :
    (compute_diffs df dates).filter
      (fun r => decide (r.log_date = di) && decide (keyOfRow r = keyOf p)) =
      [removedRow di p] := by
  have hilen : i < dates.length := by
    by_contra hcon
    rw [List.getElem?_eq_none (Nat.le_of_not_lt hcon)] at hdi
    cases hdi
  unfold compute_diffs
  rw [List.filter_flatten, List.map_map]
  apply flatten_range_eq_single dates.length i hilen
  · -- the block at index i filters to exactly the synthesized row
    show ((diffsAt df dates i).filter
      (fun r => decide (r.log_date = di) && decide (keyOfRow r = keyOf p))) =
      [removedRow di p]
    rw [diffsAt_pos df dates i di dp (by omega) hdi hdp, List.filter_append]
    have hmerged : (((factsAt df di).map
        (mergedRow (factsAt df dp) (twoAgoKeysOf df dates i))).filter
        (fun r => decide (r.log_date = di) && decide (keyOfRow r = keyOf p))) = [] := by
      rw [List.filter_eq_nil_iff]
      intro r hrm
      obtain ⟨f, hf, rfl⟩ := List.mem_map.mp hrm
      have hfd : f.log_date = di := of_decide_eq_true (List.mem_filter.mp hf).2
      have hfk : keyOf f ≠ keyOf p := habs f (List.mem_filter.mp hf).1 hfd
      simp only [Bool.and_eq_true, decide_eq_true_eq, not_and]
      intro _
      exact hfk
    rw [hmerged, List.nil_append]
    -- the removed block
    rw [removedRowsOf, List.filter_map, List.filter_filter]
    have hsrc : ((factsAt df dp).filter (fun g =>
        ((fun r => decide (r.log_date = di) && decide (keyOfRow r = keyOf p)) ∘
          removedRow di) g &&
        (decide ((factsAt df dp).find? (fun h => keyOf h = keyOf g) = some g) &&
          ((factsAt df di).find? (fun c => keyOf c = keyOf g)).isNone))) = [p] := by
      apply eq_singleton_of_length_le_one
      · -- at most one candidate, by the dedup invariant
        have hsub : ((factsAt df dp).filter (fun g =>
            ((fun r => decide (r.log_date = di) && decide (keyOfRow r = keyOf p)) ∘
              removedRow di) g &&
            (decide ((factsAt df dp).find? (fun h => keyOf h = keyOf g) = some g) &&
              ((factsAt df di).find? (fun c => keyOf c = keyOf g)).isNone))).Sublist
            (df.filter (fun f => f.log_date = dp && keyOf f = keyOf p)) := by
          unfold factsAt
          rw [List.filter_filter]
          apply List.monotone_filter_right
          intro g hg
          simp only [Function.comp, Bool.and_eq_true, decide_eq_true_eq] at hg
          simp only [Bool.and_eq_true, decide_eq_true_eq]
          exact ⟨hg.2, hg.1.1.2⟩
        exact le_trans hsub.length_le (hdedup dp (keyOf p))
      · -- p is a candidate
        have hpprev : p ∈ factsAt df dp :=
          List.mem_filter.mpr ⟨hp, decide_eq_true hpd⟩
        rw [List.mem_filter]
        refine ⟨hpprev, ?_⟩
        simp only [Function.comp, Bool.and_eq_true, decide_eq_true_eq]
        refine ⟨⟨rfl, rfl⟩, ?_, ?_⟩
        · -- p is the first (and only) entry with its key in the previous facts
          have hex : ∃ x, x ∈ factsAt df dp ∧ (keyOf x = keyOf p : Bool) := by
            exact ⟨p, hpprev, by simp⟩
          obtain ⟨q, hq⟩ := Option.isSome_iff_exists.mp (List.find?_isSome.mpr hex)
          have hqmem := List.mem_of_find?_eq_some hq
          have hqb := List.find?_some hq
          have hqk : keyOf q = keyOf p := of_decide_eq_true hqb
          have hqp : q = p := by
            have hqdf := (List.mem_filter.mp hqmem).1
            have hqd : q.log_date = dp := of_decide_eq_true (List.mem_filter.mp hqmem).2
            have h1 : q ∈ df.filter (fun f => f.log_date = dp && keyOf f = keyOf p) :=
              List.mem_filter.mpr ⟨hqdf, by simp [hqd, hqk]⟩
            have h2 : p ∈ df.filter (fun f => f.log_date = dp && keyOf f = keyOf p) :=
              List.mem_filter.mpr ⟨hp, by simp [hpd]⟩
            have := eq_singleton_of_length_le_one (hdedup dp (keyOf p)) h1
            rw [this, List.mem_singleton] at h2
            rw [h2]
          rw [hqp] at hq
          exact hq
        · -- no current fact shares the key
          cases hfind : (factsAt df di).find? (fun c => keyOf c = keyOf p) with
          | none => rfl
          | some c =>
            have hcmem := List.mem_of_find?_eq_some hfind
            have hcb := List.find?_some hfind
            have hck : keyOf c = keyOf p := of_decide_eq_true hcb
            have hcd : c.log_date = di := of_decide_eq_true (List.mem_filter.mp hcmem).2
            exact absurd hck (habs c (List.mem_filter.mp hcmem).1 hcd)
    rw [hsrc]
    rfl
  · -- every other block filters to nothing
    intro j hj hne
    show ((diffsAt df dates j).filter
      (fun r => decide (r.log_date = di) && decide (keyOfRow r = keyOf p))) = []
    rw [List.filter_eq_nil_iff]
    intro r hr
    have hdj : dates[j]? = some dates[j] := List.getElem?_eq_getElem hj
    have hrd := diffsAt_log_date df dates j dates[j] hdj r hr
    simp only [Bool.and_eq_true, decide_eq_true_eq, not_and]
    intro hrd2 _
    apply hne
    apply List.getElem?_inj hj hnd
    rw [hdj, hdi, ← hrd, hrd2]

/-- Witness for C3: one fact at d1, gone at d2 — the combined output
holds exactly one synthesized removed row for it, dated d2. -/
theorem removed_synthesis_correct_witness :
    (compute_diffs [tfact1] ["d1", "d2"]).filter
      (fun r => decide (r.log_date = "d2") && decide (keyOfRow r = keyOf tfact1)) =
      [removedRow "d2" tfact1] :=
  removed_synthesis_correct [tfact1] ["d1", "d2"] (by decide)
    (fun d k => List.length_filter_le _ _) 1 le_rfl "d2" "d1" rfl rfl tfact1
    (List.mem_singleton.mpr rfl) rfl (by decide)

/-- C4: in the diff output, a row dated dᵢ (i ≥ 2) that is flagged
is_new is flagged is_returning exactly when its key was present at
d_{i-2}; moreover such a new row has diff = null and
prev_percentage = null. -/
theorem returning_correct (df : List Fact) (dates : List String) (hnd : dates.Nodup)
    (i : ℕ) (h2 : 2 ≤ i) (di d2 : String)
    (hdi : dates[i]? = some di) (hd2 : dates[i-2]? = some d2) :
    ∀ r ∈ compute_diffs df dates, r.log_date = di → r.is_new = true →
      (r.is_returning = true ↔ ∃ f ∈ df, f.log_date = d2 ∧ keyOf f = keyOfRow r) ∧
      r.diff = none ∧ r.prev_percentage = none := by
  intro r hr hrd hnew
  obtain ⟨j, hj, hrj⟩ := mem_compute_diffs hr
  have hdj : dates[j]? = some dates[j] := List.getElem?_eq_getElem hj
  have hji : j = i := by
    apply List.getElem?_inj hj hnd
    rw [hdj, hdi]
    rw [← diffsAt_log_date df dates j dates[j] hdj r hrj, hrd]
  subst hji
  have hilen : j < dates.length := hj
  have hdp : dates[j-1]? = some dates[j-1] := List.getElem?_eq_getElem (by omega)
  rw [diffsAt_pos df dates j di dates[j-1] (by omega) hdi hdp, List.mem_append] at hrj
  have htk : twoAgoKeysOf df dates j = (factsAt df d2).map keyOf := by
    unfold twoAgoKeysOf
    rw [if_pos h2, hd2]
  rcases hrj with hm | hrm
  · obtain ⟨f, hf, rfl⟩ := List.mem_map.mp hm
    have hkey : keyOfRow (mergedRow (factsAt df dates[j-1]) (twoAgoKeysOf df dates j) f) =
        keyOf f := rfl
    have hnone : ((factsAt df dates[j-1]).find? (fun g => keyOf g = keyOf f)) = none := by
      have : (mergedRow (factsAt df dates[j-1]) (twoAgoKeysOf df dates j) f).is_new =
          ((factsAt df dates[j-1]).find? (fun g => keyOf g = keyOf f)).isNone := rfl
      rw [this] at hnew
      exact Option.isNone_iff_eq_none.mp hnew
    refine ⟨?_, ?_, ?_⟩
    · show (((factsAt df dates[j-1]).find? (fun g => keyOf g = keyOf f)).isNone &&
        decide (keyOf f ∈ twoAgoKeysOf df dates j)) = true ↔
        ∃ g ∈ df, g.log_date = d2 ∧ keyOf g = keyOf f
      rw [hnone, htk]
      simp only [Option.isNone_none, Bool.true_and, decide_eq_true_eq, List.mem_map]
      constructor
      · rintro ⟨g, hg, hgk⟩
        exact ⟨g, (List.mem_filter.mp hg).1,
          of_decide_eq_true (List.mem_filter.mp hg).2, hgk⟩
      · rintro ⟨g, hgdf, hgd, hgk⟩
        exact ⟨g, List.mem_filter.mpr ⟨hgdf, decide_eq_true hgd⟩, hgk⟩
    · show (((factsAt df dates[j-1]).find? (fun g => keyOf g = keyOf f)).map
        (·.percentage)).map (fun q => pyRound2 (f.percentage - q)) = none
      rw [hnone]
      rfl
    · show (((factsAt df dates[j-1]).find? (fun g => keyOf g = keyOf f)).map
        (·.percentage)) = none
      rw [hnone]
      rfl
  · obtain ⟨g, -, rfl⟩ := List.mem_map.mp hrm
    cases hnew

/-- Witness for C4: key K present at d1 (3.0), absent at d2, present
again at d3 (4.0) — the d3 row is new, returning, with diff = null. -/
theorem returning_correct_witness :
    ((mergedRow (factsAt [tfactK1, tfactK3] "d2")
        (twoAgoKeysOf [tfactK1, tfactK3] ["d1", "d2", "d3"] 2) tfactK3).is_returning = true ↔
      ∃ f ∈ [tfactK1, tfactK3], f.log_date = "d1" ∧
        keyOf f = keyOfRow (mergedRow (factsAt [tfactK1, tfactK3] "d2")
          (twoAgoKeysOf [tfactK1, tfactK3] ["d1", "d2", "d3"] 2) tfactK3)) ∧
    (mergedRow (factsAt [tfactK1, tfactK3] "d2")
        (twoAgoKeysOf [tfactK1, tfactK3] ["d1", "d2", "d3"] 2) tfactK3).diff = none ∧
    (mergedRow (factsAt [tfactK1, tfactK3] "d2")
        (twoAgoKeysOf [tfactK1, tfactK3] ["d1", "d2", "d3"] 2) tfactK3).prev_percentage =
      none :=
  returning_correct [tfactK1, tfactK3] ["d1", "d2", "d3"] (by decide) 2 le_rfl
    "d3" "d1" rfl rfl
    (mergedRow (factsAt [tfactK1, tfactK3] "d2")
      (twoAgoKeysOf [tfactK1, tfactK3] ["d1", "d2", "d3"] 2) tfactK3)
    (by decide) rfl (by decide)

end FTH
